import Mathlib

/-!
Verification of the TTL cache in `rag-proxy/src/cache.rs` (`CacheManager`).

Shallow embedding conventions:
* `Instant` (monotonic clock) is modelled as `Nat` ticks; `Duration` as `Nat`.
  The current instant (`Instant::now()`) is threaded as an explicit `now`
  argument; within one operation the source may call `Instant::now()` several
  times, all during the same tick, so one `now` stands for all of them.
* The concurrent map `DashMap<String, CacheEntry<String>>` is modelled as an
  association list in iteration order.  DashMap iteration order is arbitrary
  (hash-based, in particular not sorted by key); the list order stands for
  whatever iteration order the map currently has.  Insertion of an existing
  key replaces the entry in place (DashMap keeps the slot); insertion of a
  fresh key appends.  `remove` drops the entry and reports whether a value
  was present, exactly as `DashMap::remove(..).is_some()`.
* The `stats` DashMap holding the three counters `hits`/`misses`/`evictions`
  is modelled as three `Nat` fields of the cache state (`u64` counters; the
  source only ever increments them by 1 or resets them to 0, so no overflow
  arithmetic arises).
* `hit_rate` returns `f64` in the source; the division is modelled exactly
  over `ℚ`.
* The trim count `(max_size as f64 * 0.1) as usize` (cache.rs line 166) is
  modelled as `max_size / 10` on `Nat`: for every capacity below 2^53 the
  f64 product `max_size * 0.1` rounds to a value whose truncation is exactly
  `max_size / 10`.
* Each `&self` method that mutates interior state becomes a function from
  `CacheState` to a result paired with a new `CacheState`; read-only methods
  (`contains`, `get_keys`, `size`, `capacity`, `is_full`, `get_ttl`,
  `get_stats`, `hit_rate`) return their value only, since they touch no state.
-/

/-- CacheEntry from cache.rs lines 6-11: a stored value with its creation
and absolute expiration instants. -/
structure CacheEntry where
  value : String
  expires_at : Nat
  created_at : Nat
deriving Repr, DecidableEq

/-- CacheStats from cache.rs lines 13-20: the snapshot returned by
`get_stats`. -/
structure CacheStats where
  size : Nat
  hits : Nat
  misses : Nat
  evictions : Nat
  memory_usage_bytes : Nat
deriving Repr, DecidableEq

/-- CacheError from cache.rs lines 245-253.  The serde payload of
`SerializationError` is modelled as the error message string. -/
inductive CacheError where
  | CacheFull
  | InvalidTTL (msg : String)
  | SerializationError (msg : String)
deriving Repr, DecidableEq

/-- The mutable state of a `CacheManager` (cache.rs lines 22-26): the entry
table, the immutable capacity `max_size`, and the three stats counters. -/
structure CacheState where
  cache : List (String × CacheEntry)
  max_size : Nat
  hits : Nat
  misses : Nat
  evictions : Nat
deriving Repr, DecidableEq

/-- CacheMap abbreviates the entry table: an association list standing for
the DashMap in iteration order. -/
abbrev CacheMap := List (String × CacheEntry)

/-- mapGet models `DashMap::get`: the entry stored under `k`, if any. -/
def mapGet : CacheMap → String → Option CacheEntry
  | [], _ => none
  | (k', e) :: rest, k => if k' = k then some e else mapGet rest k

/-- mapInsert models `DashMap::insert`: replace in place if the key is
present, append otherwise. -/
def mapInsert : CacheMap → String → CacheEntry → CacheMap
  | [], k, e => [(k, e)]
  | (k', e') :: rest, k, e =>
    if k' = k then (k, e) :: rest else (k', e') :: mapInsert rest k e

/-- mapRemove models the table change of `DashMap::remove`: drop the entry
stored under `k` (a no-op when the key is absent).  Whether the removal
returned `Some` is `(mapGet m k).isSome`. -/
def mapRemove : CacheMap → String → CacheMap
  | [], _ => []
  | (k', e) :: rest, k => if k' = k then rest else (k', e) :: mapRemove rest k

/-- removeKeysCount models the removal loops of cache.rs lines 152-156 and
167-171: remove the listed keys one after the other and count how many
removals actually found an entry (each such success increments the eviction
counter in the source). -/
def removeKeysCount (m : CacheMap) (ks : List String) : CacheMap × Nat :=
  match ks with
  | [] => (m, 0)
  | k :: rest =>
    let hit := (mapGet m k).isSome
    let p := removeKeysCount (mapRemove m k) rest
    (p.1, (if hit then 1 else 0) + p.2)

/-- expiredKeys models the collection loop of cache.rs lines 144-149 (and
188-193): the keys of all entries with `expires_at <= now`, in iteration
order. -/
def expiredKeys (m : CacheMap) (now : Nat) : List String :=
  (m.filter (fun p => decide (p.2.expires_at ≤ now))).map Prod.fst

/-- insertByCreated inserts a `(key, created_at)` pair into a list sorted
ascending by `created_at`, before the first element not created strictly
earlier.  Folding it implements a stable sort, which is what Rust's
`sort_by` (cache.rs line 164) guarantees; the comparator there is
`a.1.cmp(&b.1)`, i.e. it compares the `created_at` components only. -/
def insertByCreated (p : String × Nat) : List (String × Nat) → List (String × Nat)
  | [] => [p]
  | q :: rest => if q.2 < p.2 then q :: insertByCreated p rest else p :: q :: rest

/-- sortByCreated models `entries.sort_by(|a, b| a.1.cmp(&b.1))` of cache.rs
line 164: a stable sort ascending by `created_at` alone (ties keep their
relative iteration order; keys are never compared). -/
def sortByCreated : List (String × Nat) → List (String × Nat)
  | [] => []
  | p :: rest => insertByCreated p (sortByCreated rest)

namespace CacheManager

/-- sweepExpired models the expired-entry sweep: collect every key with
`expires_at <= now`, remove each, and add one eviction per successful
removal.  This is both phase 1 of `evict_oldest_entries` (cache.rs lines
141-156) and one tick of the background cleanup task (lines 186-199), whose
bodies are identical. -/
def sweepExpired (s : CacheState) (now : Nat) : CacheState :=
  let rk := removeKeysCount s.cache (expiredKeys s.cache now)
  { s with cache := rk.1, evictions := s.evictions + rk.2 }

/-- trimVictims names the keys removed by the capacity-trim phase of
cache.rs lines 159-167: collect the `(key, created_at)` pairs of the table
left by the expired sweep, sort them stably by `created_at`, and take the
first `(max_size as f64 * 0.1) as usize` keys (modelled `max_size / 10`). -/
def trimVictims (s : CacheState) (now : Nat) : List String :=
  ((sortByCreated ((sweepExpired s now).cache.map
    (fun p => (p.1, p.2.created_at)))).take (s.max_size / 10)).map Prod.fst

/-- evict_oldest_entries from cache.rs lines 139-173: remove all expired
entries; if the table is still at or above capacity, additionally remove
the `trimVictims`, incrementing the eviction counter once per successful
removal. -/
def evict_oldest_entries (s : CacheState) (now : Nat) : CacheState :=
  let s1 := sweepExpired s now
  if s.max_size ≤ s1.cache.length then
    let rk := removeKeysCount s1.cache (trimVictims s now)
    { s1 with cache := rk.1, evictions := s1.evictions + rk.2 }
  else s1

/-- get from cache.rs lines 50-70: a hit returns the value and bumps `hits`;
an expired entry is removed and counted as a miss; an absent key is a
miss. -/
def get (s : CacheState) (now : Nat) (k : String) : Option String × CacheState :=
  match mapGet s.cache k with
  | some entry =>
    if now < entry.expires_at then
      (some entry.value, { s with hits := s.hits + 1 })
    else
      (none, { s with cache := mapRemove s.cache k, misses := s.misses + 1 })
  | none => (none, { s with misses := s.misses + 1 })

/-- set from cache.rs lines 72-86: evict when the table is at or above
capacity, then insert the entry with `created_at = now` and
`expires_at = now + ttl`; always returns `Ok(())`. -/
def set (s : CacheState) (now : Nat) (k : String) (v : String) (ttl : Nat) :
    Except CacheError Unit × CacheState :=
  let s1 := if s.max_size ≤ s.cache.length then evict_oldest_entries s now else s
  (Except.ok (),
    { s1 with cache := (mapInsert s1.cache k
        { value := v, expires_at := now + ttl, created_at := now }) })

/-- remove from cache.rs lines 88-90: unconditional delete, reporting
whether an entry was present.  Counters are untouched. -/
def remove (s : CacheState) (k : String) : Bool × CacheState :=
  ((mapGet s.cache k).isSome, { s with cache := mapRemove s.cache k })

/-- clear from cache.rs lines 92-97: empty the table and reset the three
counters to zero. -/
def clear (s : CacheState) : CacheState :=
  { s with cache := [], hits := 0, misses := 0, evictions := 0 }

/-- get_stats from cache.rs lines 99-117: a snapshot of size, counters, and
the approximate memory figure (sum over entries of key length plus value
length). -/
def get_stats (s : CacheState) : CacheStats :=
  { size := s.cache.length
    hits := s.hits
    misses := s.misses
    evictions := s.evictions
    memory_usage_bytes := (s.cache.map (fun p => p.1.length + p.2.value.length)).sum }

/-- get_ttl from cache.rs lines 119-127: remaining time to expiry, or zero
when already past it; read-only. -/
def get_ttl (s : CacheState) (now : Nat) (k : String) : Option Nat :=
  (mapGet s.cache k).map (fun e => if now < e.expires_at then e.expires_at - now else 0)

/-- extendEntry models the body of `extend_ttl` on the table: if the key is
present and not yet expired, push `expires_at` forward by `add` in place and
report true; otherwise leave the table unchanged and report false. -/
def extendEntry (m : CacheMap) (k : String) (now add : Nat) : Bool × CacheMap :=
  match m with
  | [] => (false, [])
  | (k', e) :: rest =>
    if k' = k then
      if now < e.expires_at then
        (true, (k', { e with expires_at := e.expires_at + add }) :: rest)
      else
        (false, (k', e) :: rest)
    else
      let p := extendEntry rest k now add
      (p.1, (k', e) :: p.2)

/-- extend_ttl from cache.rs lines 129-137. -/
def extend_ttl (s : CacheState) (now : Nat) (k : String) (add : Nat) :
    Bool × CacheState :=
  let p := extendEntry s.cache k now add
  (p.1, { s with cache := p.2 })

/-- warm_up from cache.rs lines 204-209: insert the batch sequentially via
`set`, short-circuiting on the first error. -/
def warm_up (s : CacheState) (now : Nat) :
    List (String × String × Nat) → Except CacheError Unit × CacheState
  | [] => (Except.ok (), s)
  | (k, v, ttl) :: rest =>
    match set s now k v ttl with
    | (Except.ok _, s') => warm_up s' now rest
    | (Except.error e, s') => (Except.error e, s')

/-- get_keys from cache.rs lines 211-215: snapshot of stored keys. -/
def get_keys (s : CacheState) : List String := s.cache.map Prod.fst

/-- contains from cache.rs lines 217-219: `DashMap::contains_key`, a pure
physical-presence check (no expiry logic, no mutation, no counters). -/
def contains (s : CacheState) (k : String) : Bool := (mapGet s.cache k).isSome

/-- size from cache.rs lines 221-223: physical entry count. -/
def size (s : CacheState) : Nat := s.cache.length

/-- capacity from cache.rs lines 225-227. -/
def capacity (s : CacheState) : Nat := s.max_size

/-- is_full from cache.rs lines 229-231. -/
def is_full (s : CacheState) : Bool := decide (s.max_size ≤ s.cache.length)

/-- hit_rate from cache.rs lines 233-242, with the `f64` division modelled
exactly over `ℚ`. -/
def hit_rate (s : CacheState) : ℚ :=
  if s.hits + s.misses = 0 then 0
  else (s.hits : ℚ) / ((s.hits : ℚ) + (s.misses : ℚ))

end CacheManager

/-- monoLe compares two cache states counterwise: no counter decreased. -/
def monoLe (a b : CacheState) : Prop :=
  a.hits ≤ b.hits ∧ a.misses ≤ b.misses ∧ a.evictions ≤ b.evictions

/-! Basic lemmas about the table operations. -/

lemma mapGet_isSome_iff (m : CacheMap) (k : String) :
    (mapGet m k).isSome = true ↔ k ∈ m.map Prod.fst := by
  induction m with
  | nil => simp [mapGet]
  | cons p rest ih =>
    obtain ⟨k', e⟩ := p
    by_cases h : k' = k
    · simp [mapGet, h]
    · have h' : ¬ k = k' := fun hh => h hh.symm
      simp [mapGet, h, h', ih]

lemma mapGet_eq_none_iff (m : CacheMap) (k : String) :
    mapGet m k = none ↔ k ∉ m.map Prod.fst := by
  rw [← mapGet_isSome_iff]
  cases mapGet m k <;> simp

lemma mapGet_mapInsert_self (m : CacheMap) (k : String) (e : CacheEntry) :
    mapGet (mapInsert m k e) k = some e := by
  induction m with
  | nil => simp [mapInsert, mapGet]
  | cons p rest ih =>
    obtain ⟨k', e'⟩ := p
    by_cases h : k' = k
    · simp [mapInsert, h, mapGet]
    · simp [mapInsert, h, mapGet, ih]

lemma mapRemove_sublist (m : CacheMap) (k : String) :
    (mapRemove m k).Sublist m := by
  induction m with
  | nil => simp [mapRemove]
  | cons p rest ih =>
    obtain ⟨k', e⟩ := p
    by_cases h : k' = k
    · simp [mapRemove, h]
    · simpa [mapRemove, h] using ih.cons₂ (k', e)

lemma length_mapRemove (m : CacheMap) (k : String)
    (h : (mapGet m k).isSome = true) :
    (mapRemove m k).length + 1 = m.length := by
  induction m with
  | nil => simp [mapGet] at h
  | cons p rest ih =>
    obtain ⟨k', e⟩ := p
    by_cases hk : k' = k
    · simp [mapRemove, hk]
    · simp only [mapGet, hk, if_false] at h
      simp [mapRemove, hk, ih h]

lemma mapGet_mapRemove_ne (m : CacheMap) (k k' : String) (h : k' ≠ k) :
    mapGet (mapRemove m k) k' = mapGet m k' := by
  induction m with
  | nil => simp [mapRemove]
  | cons p rest ih =>
    obtain ⟨k₀, e⟩ := p
    by_cases hk : k₀ = k
    · subst hk
      have h2 : ¬ k₀ = k' := fun hh => h hh.symm
      simp [mapRemove, mapGet, h2]
    · by_cases hk' : k₀ = k'
      · subst hk'
        simp [mapRemove, hk, mapGet]
      · simp [mapRemove, hk, mapGet, hk', ih]

lemma mapGet_mapRemove_self (m : CacheMap) (k : String)
    (h : (m.map Prod.fst).Nodup) :
    mapGet (mapRemove m k) k = none := by
  induction m with
  | nil => simp [mapRemove, mapGet]
  | cons p rest ih =>
    obtain ⟨k', e⟩ := p
    rw [List.map_cons, List.nodup_cons] at h
    by_cases hk : k' = k
    · subst hk
      simp only [mapRemove, if_pos rfl]
      rw [mapGet_eq_none_iff]
      exact h.1
    · simp [mapRemove, hk, mapGet, ih h.2]

/-! Claim theorems: round-trip, lazy expiry, clear, infallible set, contains. -/

/-- C1: for every key `k`, string value `v`, and TTL `t > 0`, `set(k, v, t)`
followed immediately by `get(k)` returns `Some v`, and that `get` records a
hit (the hit counter of the state after `set` grows by exactly one). -/
theorem set_get_roundtrip (s : CacheState) (now : Nat) (k v : String) (t : Nat)
    (h : 0 < t) :
    (CacheManager.get (CacheManager.set s now k v t).2 now k).1 = some v ∧
    (CacheManager.get (CacheManager.set s now k v t).2 now k).2.hits
      = (CacheManager.set s now k v t).2.hits + 1 := by
  have hget : mapGet (CacheManager.set s now k v t).2.cache k
      = some { value := v, expires_at := now + t, created_at := now } := by
    simp [CacheManager.set, mapGet_mapInsert_self]
  constructor <;>
    simp [CacheManager.get, hget, Nat.lt_add_of_pos_right h]

/-- C1 witness: the round-trip at a concrete state. -/
theorem set_get_roundtrip_witness :
    (CacheManager.get
      (CacheManager.set ⟨[], 10, 0, 0, 0⟩ 0 "k" "v" 5).2 0 "k").1 = some "v" ∧
    (CacheManager.get
      (CacheManager.set ⟨[], 10, 0, 0, 0⟩ 0 "k" "v" 5).2 0 "k").2.hits
      = (CacheManager.set ⟨[], 10, 0, 0, 0⟩ 0 "k" "v" 5).2.hits + 1 :=
  set_get_roundtrip ⟨[], 10, 0, 0, 0⟩ 0 "k" "v" 5 (by decide)

/-- C2: `get` enforces lazy expiry.  A physically present but expired entry
is removed (size drops by one), the miss counter — not the eviction
counter — is incremented, and `none` is returned; an absent key records a
miss and returns `none`; a present unexpired key records a hit and returns
the value. -/
theorem get_lazy_expiry (s : CacheState) (now : Nat) (k : String) :
    (∀ e, mapGet s.cache k = some e → e.expires_at ≤ now →
      (CacheManager.get s now k).1 = none ∧
      (CacheManager.get s now k).2.cache.length + 1 = s.cache.length ∧
      (CacheManager.get s now k).2.misses = s.misses + 1 ∧
      (CacheManager.get s now k).2.evictions = s.evictions ∧
      (CacheManager.get s now k).2.hits = s.hits) ∧
    (mapGet s.cache k = none →
      (CacheManager.get s now k).1 = none ∧
      (CacheManager.get s now k).2.misses = s.misses + 1 ∧
      (CacheManager.get s now k).2.cache = s.cache ∧
      (CacheManager.get s now k).2.hits = s.hits ∧
      (CacheManager.get s now k).2.evictions = s.evictions) ∧
    (∀ e, mapGet s.cache k = some e → now < e.expires_at →
      (CacheManager.get s now k).1 = some e.value ∧
      (CacheManager.get s now k).2.hits = s.hits + 1 ∧
      (CacheManager.get s now k).2.cache = s.cache ∧
      (CacheManager.get s now k).2.misses = s.misses ∧
      (CacheManager.get s now k).2.evictions = s.evictions) := by
  refine ⟨fun e he hexp => ?_, fun he => ?_, fun e he hlive => ?_⟩
  · have hlen : (mapRemove s.cache k).length + 1 = s.cache.length :=
      length_mapRemove s.cache k (by simp [he])
    simp [CacheManager.get, he, Nat.not_lt.mpr hexp, hlen]
  · simp [CacheManager.get, he]
  · simp [CacheManager.get, he, hlive]

/-- C2 witness: the three branches at concrete states — an expired entry
(at tick 7, with expiry 5), an absent key, and a live hit. -/
theorem get_lazy_expiry_witness :
    (CacheManager.get ⟨[("a", ⟨"v", 5, 0⟩)], 10, 0, 0, 0⟩ 7 "a").1 = none ∧
    (CacheManager.get ⟨[("a", ⟨"v", 5, 0⟩)], 10, 0, 0, 0⟩ 7 "a").2.cache.length + 1 = 1 ∧
    (CacheManager.get ⟨[("a", ⟨"v", 5, 0⟩)], 10, 0, 0, 0⟩ 7 "a").2.misses = 1 ∧
    (CacheManager.get ⟨[("a", ⟨"v", 5, 0⟩)], 10, 0, 0, 0⟩ 7 "a").2.evictions = 0 ∧
    (CacheManager.get ⟨[("a", ⟨"v", 5, 0⟩)], 10, 0, 0, 0⟩ 3 "b").1 = none ∧
    (CacheManager.get ⟨[("a", ⟨"v", 5, 0⟩)], 10, 0, 0, 0⟩ 3 "a").1 = some "v" := by
  have h7 := (get_lazy_expiry ⟨[("a", ⟨"v", 5, 0⟩)], 10, 0, 0, 0⟩ 7 "a").1
    ⟨"v", 5, 0⟩ (by decide) (by decide)
  have hb := (get_lazy_expiry ⟨[("a", ⟨"v", 5, 0⟩)], 10, 0, 0, 0⟩ 3 "b").2.1
    (by decide)
  have ha := (get_lazy_expiry ⟨[("a", ⟨"v", 5, 0⟩)], 10, 0, 0, 0⟩ 3 "a").2.2
    ⟨"v", 5, 0⟩ (by decide) (by decide)
  exact ⟨h7.1, h7.2.1, h7.2.2.1, h7.2.2.2.1, hb.1, ha.1⟩

/-- C6: after any sequence of operations, `clear()` leaves the cache with
`size() = 0` and all three counters equal to zero (stated for an arbitrary
reachable state `s`). -/
theorem clear_resets (s : CacheState) :
    CacheManager.size (CacheManager.clear s) = 0 ∧
    (CacheManager.clear s).hits = 0 ∧
    (CacheManager.clear s).misses = 0 ∧
    (CacheManager.clear s).evictions = 0 :=
  ⟨rfl, rfl, rfl, rfl⟩

/-- C7: `set` returns success for every key, value, TTL (including 0) and
every capacity (including 0); consequently `warm_up` over any batch also
returns success.  `CacheFull` and `InvalidTTL` are never produced (`set`
and `warm_up` are the only operations whose result type carries a
`CacheError`). -/
theorem set_never_fails (s : CacheState) (now : Nat) (k v : String) (ttl : Nat)
    (entries : List (String × String × Nat)) :
    (CacheManager.set s now k v ttl).1 = Except.ok () ∧
    (CacheManager.warm_up s now entries).1 = Except.ok () := by
  refine ⟨rfl, ?_⟩
  induction entries generalizing s with
  | nil => rfl
  | cons p rest ih =>
    obtain ⟨k', v', t'⟩ := p
    simpa [CacheManager.warm_up] using ih _

/-- C10: `contains` checks only physical presence — on an entry that is
present but already expired it returns `true` even though `get` on the same
state returns `none`.  (`contains` is a pure read in the embedding: it is a
function of the state alone, so it removes nothing and changes no
counter.) -/
theorem contains_expired_physical (s : CacheState) (now : Nat) (k : String)
    (e : CacheEntry) (h1 : mapGet s.cache k = some e)
    (h2 : e.expires_at ≤ now) :
    CacheManager.contains s k = true ∧ (CacheManager.get s now k).1 = none := by
  constructor
  · simp [CacheManager.contains, h1]
  · simp [CacheManager.get, h1, Nat.not_lt.mpr h2]

/-- C10 witness: the entry under key `a` expired at tick 5; at tick 7
`contains` still answers true while `get` answers none. -/
theorem contains_expired_physical_witness :
    CacheManager.contains ⟨[("a", ⟨"v", 5, 0⟩)], 10, 0, 0, 0⟩ "a" = true ∧
    (CacheManager.get ⟨[("a", ⟨"v", 5, 0⟩)], 10, 0, 0, 0⟩ 7 "a").1 = none :=
  contains_expired_physical ⟨[("a", ⟨"v", 5, 0⟩)], 10, 0, 0, 0⟩ 7 "a"
    ⟨"v", 5, 0⟩ (by decide) (by decide)

/-! TTL extension. -/

lemma extendEntry_act (m : CacheMap) (k : String) (now add : Nat) :
    (∀ e, mapGet m k = some e → now < e.expires_at →
      (CacheManager.extendEntry m k now add).1 = true ∧
      mapGet (CacheManager.extendEntry m k now add).2 k
        = some { e with expires_at := e.expires_at + add } ∧
      ∀ k', k' ≠ k →
        mapGet (CacheManager.extendEntry m k now add).2 k' = mapGet m k') ∧
    (mapGet m k = none → CacheManager.extendEntry m k now add = (false, m)) ∧
    (∀ e, mapGet m k = some e → e.expires_at ≤ now →
      CacheManager.extendEntry m k now add = (false, m)) := by
  induction m with
  | nil => simp [mapGet, CacheManager.extendEntry]
  | cons p rest ih =>
    obtain ⟨k₀, e₀⟩ := p
    by_cases hk : k₀ = k
    · subst hk
      refine ⟨fun e he hlive => ?_, fun he => ?_, fun e he hexp => ?_⟩
      · rw [mapGet, if_pos rfl] at he
        injection he with he
        subst he
        refine ⟨by simp [CacheManager.extendEntry, hlive], ?_, fun k' hne => ?_⟩
        · simp [CacheManager.extendEntry, hlive, mapGet]
        · have hne' : ¬ k₀ = k' := fun hh => hne hh.symm
          simp [CacheManager.extendEntry, hlive, mapGet, hne']
      · rw [mapGet, if_pos rfl] at he
        exact absurd he (by simp)
      · rw [mapGet, if_pos rfl] at he
        injection he with he
        subst he
        simp [CacheManager.extendEntry, Nat.not_lt.mpr hexp]
    · refine ⟨fun e he hlive => ?_, fun he => ?_, fun e he hexp => ?_⟩
      · rw [mapGet, if_neg hk] at he
        obtain ⟨h1, h2, h3⟩ := ih.1 e he hlive
        refine ⟨by simpa [CacheManager.extendEntry, hk] using h1, ?_, fun k' hne => ?_⟩
        · simpa [CacheManager.extendEntry, hk, mapGet] using h2
        · by_cases hk' : k₀ = k'
          · subst hk'
            simp [CacheManager.extendEntry, hk, mapGet]
          · simpa [CacheManager.extendEntry, hk, mapGet, hk'] using h3 k' hne
      · rw [mapGet, if_neg hk] at he
        have h0 := ih.2.1 he
        simp [CacheManager.extendEntry, hk, h0]
      · rw [mapGet, if_neg hk] at he
        have h0 := ih.2.2 e he hexp
        simp [CacheManager.extendEntry, hk, h0]

/-- C5: `extend_ttl(key, additional)` returns true and adds exactly
`additional` to `expires_at` when the entry is present and not expired
(leaving every other key untouched); on an absent or already expired key it
returns false and leaves the whole state unchanged — an expired entry is
never resurrected.  Counters (and the capacity) are never modified. -/
theorem extend_ttl_spec (s : CacheState) (now : Nat) (k : String) (add : Nat) :
    (∀ e, mapGet s.cache k = some e → now < e.expires_at →
      (CacheManager.extend_ttl s now k add).1 = true ∧
      mapGet (CacheManager.extend_ttl s now k add).2.cache k
        = some { e with expires_at := e.expires_at + add } ∧
      ∀ k', k' ≠ k →
        mapGet (CacheManager.extend_ttl s now k add).2.cache k'
          = mapGet s.cache k') ∧
    (mapGet s.cache k = none →
      CacheManager.extend_ttl s now k add = (false, s)) ∧
    (∀ e, mapGet s.cache k = some e → e.expires_at ≤ now →
      CacheManager.extend_ttl s now k add = (false, s)) ∧
    ((CacheManager.extend_ttl s now k add).2.hits = s.hits ∧
     (CacheManager.extend_ttl s now k add).2.misses = s.misses ∧
     (CacheManager.extend_ttl s now k add).2.evictions = s.evictions ∧
     (CacheManager.extend_ttl s now k add).2.max_size = s.max_size) := by
  obtain ⟨hlive, hnone, hexp⟩ := extendEntry_act s.cache k now add
  refine ⟨fun e he h => ?_, fun he => ?_, fun e he h => ?_, by
    simp [CacheManager.extend_ttl]⟩
  · obtain ⟨h1, h2, h3⟩ := hlive e he h
    exact ⟨by simp [CacheManager.extend_ttl, h1],
      by simpa [CacheManager.extend_ttl] using h2,
      fun k' hne => by simpa [CacheManager.extend_ttl] using h3 k' hne⟩
  · simp [CacheManager.extend_ttl, hnone he]
  · simp [CacheManager.extend_ttl, hexp e he h]

/-- C5 witness: extending a live entry (expiry 10, at tick 3) succeeds and
pushes expiry to 14; extending an expired entry (at tick 12) and an absent
key both fail and change nothing. -/
theorem extend_ttl_spec_witness :
    (CacheManager.extend_ttl ⟨[("a", ⟨"v", 10, 0⟩)], 10, 0, 0, 0⟩ 3 "a" 4).1 = true ∧
    mapGet (CacheManager.extend_ttl
      ⟨[("a", ⟨"v", 10, 0⟩)], 10, 0, 0, 0⟩ 3 "a" 4).2.cache "a" = some ⟨"v", 14, 0⟩ ∧
    CacheManager.extend_ttl ⟨[("a", ⟨"v", 10, 0⟩)], 10, 0, 0, 0⟩ 12 "a" 4
      = (false, ⟨[("a", ⟨"v", 10, 0⟩)], 10, 0, 0, 0⟩) ∧
    CacheManager.extend_ttl ⟨[("a", ⟨"v", 10, 0⟩)], 10, 0, 0, 0⟩ 3 "b" 4
      = (false, ⟨[("a", ⟨"v", 10, 0⟩)], 10, 0, 0, 0⟩) := by
  have hl := (extend_ttl_spec ⟨[("a", ⟨"v", 10, 0⟩)], 10, 0, 0, 0⟩ 3 "a" 4).1
    ⟨"v", 10, 0⟩ (by decide) (by decide)
  have he := (extend_ttl_spec ⟨[("a", ⟨"v", 10, 0⟩)], 10, 0, 0, 0⟩ 12 "a" 4).2.2.1
    ⟨"v", 10, 0⟩ (by decide) (by decide)
  have hn := (extend_ttl_spec ⟨[("a", ⟨"v", 10, 0⟩)], 10, 0, 0, 0⟩ 3 "b" 4).2.1
    (by decide)
  exact ⟨hl.1, hl.2.1, he, hn⟩

/-! Hit rate. -/

/-- C8: `hit_rate()` is `hits / (hits + misses)` when at least one counter
is nonzero, `0` when both are zero, and always lies in `[0, 1]` (the `f64`
division modelled exactly over `ℚ`). -/
theorem hit_rate_spec (s : CacheState) :
    (s.hits + s.misses = 0 → CacheManager.hit_rate s = 0) ∧
    (s.hits + s.misses ≠ 0 →
      CacheManager.hit_rate s = (s.hits : ℚ) / ((s.hits : ℚ) + (s.misses : ℚ))) ∧
    0 ≤ CacheManager.hit_rate s ∧ CacheManager.hit_rate s ≤ 1 := by
  by_cases h : s.hits + s.misses = 0
  · refine ⟨fun _ => by simp [CacheManager.hit_rate, h], fun hc => absurd h hc, ?_, ?_⟩ <;>
      simp [CacheManager.hit_rate, h]
  · have hpos : (0 : ℚ) < (s.hits : ℚ) + (s.misses : ℚ) := by
      exact_mod_cast Nat.pos_of_ne_zero h
    refine ⟨fun hc => absurd hc h, fun _ => by simp [CacheManager.hit_rate, h], ?_, ?_⟩
    · simp only [CacheManager.hit_rate, h, if_false]
      positivity
    · simp only [CacheManager.hit_rate, h, if_false]
      rw [div_le_one hpos]
      exact le_add_of_nonneg_right (by positivity)

/-- C8 witness: the zero case and the case hits = 1, misses = 1. -/
theorem hit_rate_spec_witness :
    CacheManager.hit_rate ⟨[], 10, 0, 0, 0⟩ = 0 ∧
    CacheManager.hit_rate ⟨[], 10, 1, 1, 0⟩ = 1 / 2 := by
  refine ⟨(hit_rate_spec ⟨[], 10, 0, 0, 0⟩).1 (by decide), ?_⟩
  have h := (hit_rate_spec ⟨[], 10, 1, 1, 0⟩).2.1 (by decide)
  rw [h]
  norm_num

/-! Counter monotonicity. -/

lemma monoLe_refl (s : CacheState) : monoLe s s :=
  ⟨le_refl _, le_refl _, le_refl _⟩

lemma monoLe_trans {a b c : CacheState} (h1 : monoLe a b) (h2 : monoLe b c) :
    monoLe a c :=
  ⟨h1.1.trans h2.1, h1.2.1.trans h2.2.1, h1.2.2.trans h2.2.2⟩

lemma sweep_mono (s : CacheState) (now : Nat) :
    monoLe s (CacheManager.sweepExpired s now) :=
  ⟨le_refl _, le_refl _, Nat.le_add_right _ _⟩

lemma evict_mono (s : CacheState) (now : Nat) :
    monoLe s (CacheManager.evict_oldest_entries s now) := by
  unfold CacheManager.evict_oldest_entries
  dsimp only
  split
  · exact ⟨le_refl _, le_refl _,
      (Nat.le_add_right _ _).trans (Nat.le_add_right _ _)⟩
  · exact sweep_mono s now

lemma set_mono (s : CacheState) (now : Nat) (k v : String) (ttl : Nat) :
    monoLe s (CacheManager.set s now k v ttl).2 := by
  unfold CacheManager.set
  dsimp only
  split
  · exact evict_mono s now
  · exact monoLe_refl s

lemma get_mono (s : CacheState) (now : Nat) (k : String) :
    monoLe s (CacheManager.get s now k).2 := by
  unfold CacheManager.get
  rcases hm : mapGet s.cache k with _ | e
  · exact ⟨le_refl _, Nat.le_add_right _ _, le_refl _⟩
  · by_cases hl : now < e.expires_at
    · simp only [hl, if_true]
      exact ⟨Nat.le_add_right _ _, le_refl _, le_refl _⟩
    · simp only [hl, if_false]
      exact ⟨le_refl _, Nat.le_add_right _ _, le_refl _⟩

lemma warm_up_mono (entries : List (String × String × Nat)) (s : CacheState)
    (now : Nat) :
    monoLe s (CacheManager.warm_up s now entries).2 := by
  induction entries generalizing s with
  | nil => exact monoLe_refl s
  | cons p rest ih =>
    obtain ⟨k, v, ttl⟩ := p
    have hstep := set_mono s now k v ttl
    have htail := ih (CacheManager.set s now k v ttl).2
    simpa [CacheManager.warm_up] using monoLe_trans hstep htail

/-- C9: no state-mutating operation other than `clear` ever decreases any
of the three counters: `get`, `set`, `remove`, `extend_ttl`, `warm_up`, the
eviction pass, and the background sweep all leave `hits`, `misses`, and
`evictions` at or above their previous values.  (`contains`, `get_keys`,
`get_ttl`, `get_stats`, `size`, `capacity`, `is_full`, and `hit_rate` are
pure reads in the embedding — functions of the state with no state result —
so they cannot change a counter at all.) -/
theorem counters_monotone (s : CacheState) (now : Nat) (k v : String)
    (ttl add : Nat) (entries : List (String × String × Nat)) :
    monoLe s (CacheManager.get s now k).2 ∧
    monoLe s (CacheManager.set s now k v ttl).2 ∧
    monoLe s (CacheManager.remove s k).2 ∧
    monoLe s (CacheManager.extend_ttl s now k add).2 ∧
    monoLe s (CacheManager.warm_up s now entries).2 ∧
    monoLe s (CacheManager.evict_oldest_entries s now) ∧
    monoLe s (CacheManager.sweepExpired s now) :=
  ⟨get_mono s now k, set_mono s now k v ttl, monoLe_refl s,
    monoLe_refl s, warm_up_mono entries s now, evict_mono s now,
    sweep_mono s now⟩

/-! Properties of the stable sort by creation time. -/

lemma insertByCreated_perm (p : String × Nat) (l : List (String × Nat)) :
    (insertByCreated p l).Perm (p :: l) := by
  induction l with
  | nil => exact List.Perm.refl _
  | cons q rest ih =>
    by_cases h : q.2 < p.2
    · simp only [insertByCreated, h, if_true]
      exact (ih.cons q).trans (List.Perm.swap p q rest)
    · simp only [insertByCreated, h, if_false]
      exact List.Perm.refl _

lemma sortByCreated_perm (l : List (String × Nat)) :
    (sortByCreated l).Perm l := by
  induction l with
  | nil => exact List.Perm.refl _
  | cons p rest ih =>
    exact (insertByCreated_perm p _).trans (ih.cons p)

lemma insertByCreated_pairwise (p : String × Nat) (l : List (String × Nat))
    (h : l.Pairwise fun a b => a.2 ≤ b.2) :
    (insertByCreated p l).Pairwise fun a b => a.2 ≤ b.2 := by
  induction l with
  | nil => simp [insertByCreated]
  | cons q rest ih =>
    rw [List.pairwise_cons] at h
    by_cases hlt : q.2 < p.2
    · simp only [insertByCreated, hlt, if_true]
      rw [List.pairwise_cons]
      refine ⟨fun x hx => ?_, ih h.2⟩
      rcases List.mem_cons.mp ((insertByCreated_perm p rest).mem_iff.mp hx) with
        rfl | hx'
      · exact Nat.le_of_lt hlt
      · exact h.1 x hx'
    · simp only [insertByCreated, hlt, if_false]
      rw [List.pairwise_cons]
      refine ⟨fun x hx => ?_, List.pairwise_cons.mpr h⟩
      rcases List.mem_cons.mp hx with rfl | hx'
      · exact Nat.le_of_not_lt hlt
      · exact (Nat.le_of_not_lt hlt).trans (h.1 x hx')

lemma sortByCreated_pairwise (l : List (String × Nat)) :
    (sortByCreated l).Pairwise fun a b => a.2 ≤ b.2 := by
  induction l with
  | nil => simp [sortByCreated]
  | cons p rest ih => exact insertByCreated_pairwise p _ ih

lemma insertByCreated_filter (p : String × Nat) (l : List (String × Nat))
    (c : Nat) :
    (insertByCreated p l).filter (fun q => q.2 == c)
      = if p.2 == c then p :: l.filter (fun q => q.2 == c)
        else l.filter (fun q => q.2 == c) := by
  induction l with
  | nil =>
    by_cases hp : p.2 = c <;> simp [insertByCreated, List.filter_cons, hp]
  | cons q rest ih =>
    by_cases hlt : q.2 < p.2
    · simp only [insertByCreated, hlt, if_true]
      by_cases hp : p.2 = c
      · have hq : ¬ q.2 = c := by omega
        simp [List.filter_cons, hp, hq, ih]
      · simp [List.filter_cons, hp, ih]
    · simp only [insertByCreated, hlt, if_false]
      by_cases hp : p.2 = c <;> simp [List.filter_cons, hp]

lemma sortByCreated_filter (l : List (String × Nat)) (c : Nat) :
    (sortByCreated l).filter (fun q => q.2 == c)
      = l.filter (fun q => q.2 == c) := by
  induction l with
  | nil => rfl
  | cons p rest ih =>
    rw [sortByCreated, insertByCreated_filter, List.filter_cons]
    by_cases hp : p.2 = c <;> simp [hp, ih]

/-! Properties of the counted removal loop. -/

lemma removeKeysCount_fst_sublist (ks : List String) :
    ∀ m : CacheMap, (removeKeysCount m ks).1.Sublist m := by
  induction ks with
  | nil => exact fun m => List.Sublist.refl m
  | cons k rest ih =>
    intro m
    simp only [removeKeysCount]
    exact (ih (mapRemove m k)).trans (mapRemove_sublist m k)

lemma removeKeysCount_spec (ks : List String) :
    ∀ m : CacheMap, (m.map Prod.fst).Nodup → ks.Nodup →
    (∀ k ∈ ks, k ∈ m.map Prod.fst) →
    (removeKeysCount m ks).2 = ks.length ∧
    (removeKeysCount m ks).1.length + ks.length = m.length := by
  induction ks with
  | nil => exact fun m _ _ _ => ⟨rfl, by simp [removeKeysCount]⟩
  | cons k rest ih =>
    intro m hnd hknd hmem
    have hkmem : k ∈ m.map Prod.fst := hmem k (List.mem_cons_self k rest)
    have hsome : (mapGet m k).isSome = true := (mapGet_isSome_iff m k).mpr hkmem
    rw [List.nodup_cons] at hknd
    have hnd1 : ((mapRemove m k).map Prod.fst).Nodup :=
      hnd.sublist ((mapRemove_sublist m k).map Prod.fst)
    have hmem1 : ∀ k' ∈ rest, k' ∈ (mapRemove m k).map Prod.fst := by
      intro k' hk'
      have hne : k' ≠ k := fun hh => hknd.1 (hh ▸ hk')
      have hin : k' ∈ m.map Prod.fst := hmem k' (List.mem_cons_of_mem _ hk')
      rw [← mapGet_isSome_iff] at hin ⊢
      rwa [mapGet_mapRemove_ne m k k' hne]
    obtain ⟨hc, hl⟩ := ih (mapRemove m k) hnd1 hknd.2 hmem1
    have hlen := length_mapRemove m k hsome
    constructor
    · simp only [removeKeysCount, hsome, if_true, List.length_cons]
      omega
    · simp only [removeKeysCount, List.length_cons]
      omega

lemma removeKeysCount_get (ks : List String) :
    ∀ (m : CacheMap) (k : String), (m.map Prod.fst).Nodup →
    mapGet (removeKeysCount m ks).1 k
      = if k ∈ ks then none else mapGet m k := by
  induction ks with
  | nil => intro m k _; simp [removeKeysCount]
  | cons k0 rest ih =>
    intro m k hnd
    have hnd1 : ((mapRemove m k0).map Prod.fst).Nodup :=
      hnd.sublist ((mapRemove_sublist m k0).map Prod.fst)
    simp only [removeKeysCount]
    rw [ih (mapRemove m k0) k hnd1]
    by_cases hk : k = k0
    · subst hk
      by_cases hkr : k ∈ rest
      · simp [hkr]
      · simp [hkr, mapGet_mapRemove_self m k hnd]
    · rw [mapGet_mapRemove_ne m k0 k hk]
      simp [List.mem_cons, hk]

/-! Capacity trim: number and identity of removed entries. -/

lemma sweep_keys_nodup (s : CacheState) (now : Nat)
    (hnd : (s.cache.map Prod.fst).Nodup) :
    ((CacheManager.sweepExpired s now).cache.map Prod.fst).Nodup :=
  hnd.sublist
    ((removeKeysCount_fst_sublist (expiredKeys s.cache now) s.cache).map Prod.fst)

lemma trimVictims_spec (s : CacheState) (now : Nat)
    (hnd : (s.cache.map Prod.fst).Nodup)
    (hfull : s.max_size ≤ (CacheManager.sweepExpired s now).cache.length) :
    (CacheManager.trimVictims s now).Nodup ∧
    (∀ k ∈ CacheManager.trimVictims s now,
      k ∈ (CacheManager.sweepExpired s now).cache.map Prod.fst) ∧
    (CacheManager.trimVictims s now).length = s.max_size / 10 := by
  have hnd1 := sweep_keys_nodup s now hnd
  have hkeys : ((CacheManager.sweepExpired s now).cache.map
      (fun p => (p.1, p.2.created_at))).map Prod.fst
      = (CacheManager.sweepExpired s now).cache.map Prod.fst := by
    rw [List.map_map]
    rfl
  have hperm : ((sortByCreated ((CacheManager.sweepExpired s now).cache.map
      (fun p => (p.1, p.2.created_at)))).map Prod.fst).Perm
      ((CacheManager.sweepExpired s now).cache.map Prod.fst) := by
    have hp := (sortByCreated_perm ((CacheManager.sweepExpired s now).cache.map
      (fun p => (p.1, p.2.created_at)))).map Prod.fst
    rwa [hkeys] at hp
  have hsortnd : ((sortByCreated ((CacheManager.sweepExpired s now).cache.map
      (fun p => (p.1, p.2.created_at)))).map Prod.fst).Nodup :=
    hperm.nodup_iff.mpr hnd1
  have hsortlen : ((sortByCreated ((CacheManager.sweepExpired s now).cache.map
      (fun p => (p.1, p.2.created_at)))).map Prod.fst).length
      = (CacheManager.sweepExpired s now).cache.length := by
    rw [hperm.length_eq, List.length_map]
  have hvict : CacheManager.trimVictims s now
      = ((sortByCreated ((CacheManager.sweepExpired s now).cache.map
          (fun p => (p.1, p.2.created_at)))).map Prod.fst).take
          (s.max_size / 10) := by
    unfold CacheManager.trimVictims
    rw [List.map_take]
  have htc : s.max_size / 10
      ≤ ((sortByCreated ((CacheManager.sweepExpired s now).cache.map
          (fun p => (p.1, p.2.created_at)))).map Prod.fst).length := by
    rw [hsortlen]
    exact (Nat.div_le_self _ _).trans hfull
  refine ⟨?_, fun k hk => ?_, ?_⟩
  · rw [hvict]
    exact hsortnd.sublist (List.take_sublist _ _)
  · rw [hvict] at hk
    exact hperm.mem_iff.mp (List.take_subset _ _ hk)
  · rw [hvict, List.length_take]
    omega

/-- C3: whenever the table is still at or above capacity after the
expired-entry sweep, the capacity-trim pass removes exactly
`floor(capacity * 0.1)` entries and adds exactly that many evictions; and
concretely, with capacity 2 the trim count is 0, so three successive `set`
calls of distinct unexpired keys leave the table at size 3. -/
theorem evict_trim_count (s : CacheState) (now : Nat)
    (hnd : (s.cache.map Prod.fst).Nodup)
    (hfull : s.max_size ≤ (CacheManager.sweepExpired s now).cache.length) :
    ((CacheManager.evict_oldest_entries s now).cache.length + s.max_size / 10
        = (CacheManager.sweepExpired s now).cache.length ∧
      (CacheManager.evict_oldest_entries s now).evictions
        = (CacheManager.sweepExpired s now).evictions + s.max_size / 10) ∧
    CacheManager.size (CacheManager.set (CacheManager.set (CacheManager.set
      ⟨[], 2, 0, 0, 0⟩ 0 "a" "va" 100).2 1 "b" "vb" 100).2 2 "c" "vc" 100).2
      = 3 := by
  obtain ⟨hvnd, hvmem, hvlen⟩ := trimVictims_spec s now hnd hfull
  have hnd1 := sweep_keys_nodup s now hnd
  obtain ⟨hc, hl⟩ := removeKeysCount_spec (CacheManager.trimVictims s now)
    (CacheManager.sweepExpired s now).cache hnd1 hvnd hvmem
  refine ⟨?_, by decide⟩
  unfold CacheManager.evict_oldest_entries
  dsimp only
  rw [if_pos hfull]
  exact ⟨by dsimp only; omega, by dsimp only; omega⟩

/-- C3 witness: a concrete full cache at capacity 2 (trim count 0), plus
the concrete three-insert run. -/
theorem evict_trim_count_witness :
    ((CacheManager.evict_oldest_entries
        ⟨[("a", ⟨"v", 9, 1⟩), ("b", ⟨"w", 9, 2⟩)], 2, 0, 0, 0⟩ 0).cache.length
          + 2 / 10
        = (CacheManager.sweepExpired
            ⟨[("a", ⟨"v", 9, 1⟩), ("b", ⟨"w", 9, 2⟩)], 2, 0, 0, 0⟩ 0).cache.length ∧
      (CacheManager.evict_oldest_entries
        ⟨[("a", ⟨"v", 9, 1⟩), ("b", ⟨"w", 9, 2⟩)], 2, 0, 0, 0⟩ 0).evictions
        = (CacheManager.sweepExpired
            ⟨[("a", ⟨"v", 9, 1⟩), ("b", ⟨"w", 9, 2⟩)], 2, 0, 0, 0⟩ 0).evictions
          + 2 / 10) ∧
    CacheManager.size (CacheManager.set (CacheManager.set (CacheManager.set
      ⟨[], 2, 0, 0, 0⟩ 0 "a" "va" 100).2 1 "b" "vb" 100).2 2 "c" "vc" 100).2
      = 3 :=
  evict_trim_count ⟨[("a", ⟨"v", 9, 1⟩), ("b", ⟨"w", 9, 2⟩)], 2, 0, 0, 0⟩ 0
    (by decide) (by decide)

/-! Capacity-trim ordering (C4). -/

/-- A table at capacity 10 whose iteration order lists key `b` before key
`a`, both created at tick 0 (a `created_at` tie); the other eight entries
are created later and nothing is expired at tick 9. -/
def tieStateOne : CacheState :=
  { cache := [("b", ⟨"vb", 100, 0⟩), ("a", ⟨"va", 100, 0⟩),
              ("c", ⟨"vc", 100, 1⟩), ("d", ⟨"vd", 100, 2⟩),
              ("e", ⟨"ve", 100, 3⟩), ("f", ⟨"vf", 100, 4⟩),
              ("g", ⟨"vg", 100, 5⟩), ("h", ⟨"vh", 100, 6⟩),
              ("i", ⟨"vi", 100, 7⟩), ("j", ⟨"vj", 100, 8⟩)],
    max_size := 10, hits := 0, misses := 0, evictions := 0 }

/-- C4 counterexample: the claim predicts that among the two oldest entries
(`created_at` tie between `a` and `b`) the capacity trim removes the
lexicographically first key `a`.  The code compares only `created_at`
(`entries.sort_by(|a, b| a.1.cmp(&b.1))`, a stable sort), so the tie keeps
iteration order and the single victim (`trim_count = 1`) is `b`: after a
`set` that triggers eviction, `b` is gone while `a` survives. -/
theorem evict_trim_order_counterexample :
    CacheManager.trimVictims tieStateOne 9 = ["b"] ∧
    mapGet (CacheManager.set tieStateOne 9 "k" "vk" 100).2.cache "b" = none ∧
    mapGet (CacheManager.set tieStateOne 9 "k" "vk" 100).2.cache "a"
      = some ⟨"va", 100, 0⟩ := by
  decide

/-- A table at capacity 10 with ten distinct creation times, nothing
expired at tick 0. -/
def trimStateTen : CacheState :=
  { cache := [("a", ⟨"va", 100, 0⟩), ("b", ⟨"vb", 100, 1⟩),
              ("c", ⟨"vc", 100, 2⟩), ("d", ⟨"vd", 100, 3⟩),
              ("e", ⟨"ve", 100, 4⟩), ("f", ⟨"vf", 100, 5⟩),
              ("g", ⟨"vg", 100, 6⟩), ("h", ⟨"vh", 100, 7⟩),
              ("i", ⟨"vi", 100, 8⟩), ("j", ⟨"vj", 100, 9⟩)],
    max_size := 10, hits := 0, misses := 0, evictions := 0 }

/-- C4 (amended): during the capacity-trim phase the remaining entries are
ordered ascending by `created_at` with ties between equal `created_at`
values kept in the table's iteration order (the sort is stable and compares
only `created_at`; there is no key-based tie-break), and exactly the first
`trim_count` keys of that order are removed, incrementing the eviction
counter once per removal. -/
theorem evict_trim_order (s : CacheState) (now : Nat)
    (hnd : (s.cache.map Prod.fst).Nodup)
    (hfull : s.max_size ≤ (CacheManager.sweepExpired s now).cache.length) :
    (sortByCreated ((CacheManager.sweepExpired s now).cache.map
        (fun p => (p.1, p.2.created_at)))).Pairwise (fun a b => a.2 ≤ b.2) ∧
    (sortByCreated ((CacheManager.sweepExpired s now).cache.map
        (fun p => (p.1, p.2.created_at)))).Perm
      ((CacheManager.sweepExpired s now).cache.map
        (fun p => (p.1, p.2.created_at))) ∧
    (∀ c, (sortByCreated ((CacheManager.sweepExpired s now).cache.map
        (fun p => (p.1, p.2.created_at)))).filter (fun q => q.2 == c)
      = ((CacheManager.sweepExpired s now).cache.map
        (fun p => (p.1, p.2.created_at))).filter (fun q => q.2 == c)) ∧
    (∀ k ∈ CacheManager.trimVictims s now,
      mapGet (CacheManager.evict_oldest_entries s now).cache k = none) ∧
    (∀ k, k ∉ CacheManager.trimVictims s now →
      mapGet (CacheManager.evict_oldest_entries s now).cache k
        = mapGet (CacheManager.sweepExpired s now).cache k) ∧
    (CacheManager.evict_oldest_entries s now).evictions
      = (CacheManager.sweepExpired s now).evictions
        + (CacheManager.trimVictims s now).length := by
  obtain ⟨hvnd, hvmem, _⟩ := trimVictims_spec s now hnd hfull
  have hnd1 := sweep_keys_nodup s now hnd
  obtain ⟨hc, _⟩ := removeKeysCount_spec (CacheManager.trimVictims s now)
    (CacheManager.sweepExpired s now).cache hnd1 hvnd hvmem
  refine ⟨sortByCreated_pairwise _, sortByCreated_perm _,
    fun c => sortByCreated_filter _ c, fun k hk => ?_, fun k hk => ?_, ?_⟩
  · unfold CacheManager.evict_oldest_entries
    dsimp only
    rw [if_pos hfull]
    dsimp only
    rw [removeKeysCount_get _ _ _ hnd1]
    simp [hk]
  · unfold CacheManager.evict_oldest_entries
    dsimp only
    rw [if_pos hfull]
    dsimp only
    rw [removeKeysCount_get _ _ _ hnd1]
    simp [hk]
  · unfold CacheManager.evict_oldest_entries
    dsimp only
    rw [if_pos hfull]
    dsimp only
    rw [hc]

/-- C4 witness: at `trimStateTen` (capacity 10, full, tick 0) the single
trim victim is the oldest key `a`: it is removed, key `b` is untouched, and
the eviction counter grows by the victim count. -/
theorem evict_trim_order_witness :
    mapGet (CacheManager.evict_oldest_entries trimStateTen 0).cache "a" = none ∧
    mapGet (CacheManager.evict_oldest_entries trimStateTen 0).cache "b"
      = mapGet (CacheManager.sweepExpired trimStateTen 0).cache "b" ∧
    (CacheManager.evict_oldest_entries trimStateTen 0).evictions
      = (CacheManager.sweepExpired trimStateTen 0).evictions
        + (CacheManager.trimVictims trimStateTen 0).length := by
  have h := evict_trim_order trimStateTen 0 (by decide) (by decide)
  exact ⟨h.2.2.2.1 "a" (by decide), h.2.2.2.2.1 "b" (by decide),
    h.2.2.2.2.2⟩
